import Mathlib

/-!
# Verification of the deeptime/scikit-time numeric cores against their specification

Two engines are modelled:

* the **sequence-inference engine** (forward, backward, Viterbi) over a hidden
  Markov model, modelled with exact rational arithmetic on lists (matrices are
  lists of rows);
* the **robust spectral algebra engine** (`spd_eig`, `spd_inv`,
  `spd_inv_split`, `eig_corr`) modelled over rational matrices, with the
  external dense eigensolver abstracted as input eigen-data.

The repository ships the sequence-inference algorithms as compiled C++
bindings (`sktime.markovprocess.hmm._hmm_bindings.util`) and the spectral
algebra as the `sktime.numeric` package; neither implementation file is part
of the Python sources here, only their tests and callers.  Those operations
are therefore modelled from the specification, and checked against the
reference fixtures of `tests/markovprocess/hmm/test_mlhmm.py` and
`tests/numeric/test_utils.py`.  The utilities `handle_n_jobs`
(`deeptime/util/parallel.py`) and `mydot`
(`sktime/markov/tools/estimation/sparse/mle/newton/linsolve.py`) are embedded
directly from their sources.
-/

namespace DeeptimeSpec

open Matrix

/-! ## List-based vectors and matrices over ℚ (sequence-inference engine) -/

/-- Dot product of two rational vectors (entrywise product, summed). -/
def dotZip (v w : List ℚ) : ℚ := (List.zipWith (· * ·) v w).sum

/-- Column `j` of a matrix given as a list of rows (missing entries read 0). -/
def column (M : List (List ℚ)) (j : Nat) : List ℚ := M.map (fun r => r.getD j 0)

/-- Row-vector times matrix: `(v · M) j = ∑ i, v i * M i j`, `n` columns. -/
def vecMat (v : List ℚ) (M : List (List ℚ)) (n : Nat) : List ℚ :=
  (List.range n).map (fun j => dotZip v (column M j))

/-- Normalize a row by its sum, returning the normalizer and the scaled row. -/
def normalizeRow (v : List ℚ) : ℚ × List ℚ :=
  let s := v.sum
  (s, v.map (· / s))

/-- Entrywise product of two vectors. -/
def hadamard (v w : List ℚ) : List ℚ := List.zipWith (· * ·) v w

/-- Recursive part of the forward algorithm: given the scaled forward row for
the previous time step, process the remaining rows of the state-probability
trajectory, collecting the per-step normalizers and scaled rows. -/
def forwardAux (A : List (List ℚ)) (n : Nat) (aPrev : List ℚ) :
    List (List ℚ) → List ℚ × List (List ℚ)
  | [] => ([], [])
  | bt :: rest =>
    let p := normalizeRow (hadamard (vecMat aPrev A n) bt)
    let q := forwardAux A n p.2 rest
    (p.1 :: q.1, p.2 :: q.2)

/-- Modelled from the spec: `forward(A, B, π)` of the sequence-inference
engine; its implementation is the compiled binding
`_hmm_bindings.util.forward`, absent from the Python sources.  Per §4.1:
`α[0,:] = π ⊙ B[0,:]`, normalized by its sum; for `t ≥ 1`,
`α[t,:] = (α[t-1,:] · A) ⊙ B[t,:]`, normalized.  The returned pair holds the
per-step normalizers (whose logs accumulate to the log-likelihood) and the
scaled forward variables `α`. -/
def forward (A B : List (List ℚ)) (pi0 : List ℚ) : List ℚ × List (List ℚ) :=
  match B with
  | [] => ([], [])
  | b0 :: rest =>
    let p := normalizeRow (hadamard pi0 b0)
    let q := forwardAux A A.length p.2 rest
    (p.1 :: q.1, p.2 :: q.2)

/-- Modelled from the spec: `backward(A, B)` of the sequence-inference engine;
its implementation is the compiled binding `_hmm_bindings.util.backward`,
absent from the Python sources.  Per §4.1 the recursion is
`β[t,:] = A · (B[t+1,:] ⊙ β[t+1,:])`, each row normalized by its sum; the
initial row of ones is also normalized by its sum, as the reference values of
`test_mlhmm.py` require (their last row is `[0.5, 0.5]`). -/
def backward (A : List (List ℚ)) : List (List ℚ) → List (List ℚ)
  | [] => []
  | [_] => [(normalizeRow (List.replicate A.length 1)).2]
  | _ :: b1 :: rest =>
    let tail := backward A (b1 :: rest)
    let betaNext := tail.headD []
    let row := (List.range A.length).map
      (fun i => dotZip (A.getD i []) (hadamard b1 betaNext))
    (normalizeRow row).2 :: tail

/-- Index of the first maximal entry of a rational vector (0 if empty),
matching the lowest-index tie-break of `argmax`. -/
def argmaxIdx (v : List ℚ) : Nat :=
  (v.foldl
    (fun acc x =>
      match acc with
      | (best, bestIdx, idx) =>
        if best < x then (x, idx, idx + 1) else (best, bestIdx, idx + 1))
    ((v.headD 0, 0, 0) : ℚ × Nat × Nat)).2.1

/-- One Viterbi step: from the partial-path scores of the previous time step
and the current emission row, compute the new scores and back-pointers. -/
def vitStep (A : List (List ℚ)) (n : Nat) (dPrev bRow : List ℚ) :
    List ℚ × List Nat :=
  let cands := (List.range n).map (fun j =>
    let col := hadamard dPrev (column A j)
    let k := argmaxIdx col
    (col.getD k 0 * bRow.getD j 0, k))
  (cands.map Prod.fst, cands.map Prod.snd)

/-- Reconstruct the Viterbi path from back-pointer rows given latest first. -/
def backtrack : List (List Nat) → Nat → List Nat
  | [], q => [q]
  | p :: rest, q => backtrack rest (p.getD q 0) ++ [q]

/-- Modelled from the spec: `viterbi(A, B, π)`; the wrapper in
`sktime/markovprocess/hmm/hmm.py` delegates to the compiled binding
`_hmm_bindings.util.viterbi`, absent from the Python sources.  Dynamic
program in (exact) probability space; ties are broken towards the lowest
state index, per §3 of the spec. -/
def viterbi (A B : List (List ℚ)) (pi0 : List ℚ) : List Nat :=
  match B with
  | [] => []
  | b0 :: rest =>
    let d0 := hadamard pi0 b0
    let fin := rest.foldl
      (fun (acc : List ℚ × List (List Nat)) bt =>
        let s := vitStep A A.length acc.1 bt
        (s.1, s.2 :: acc.2))
      (d0, [])
    backtrack fin.2 (argmaxIdx fin.1)

/-- `|a - b| ≤ tol` for all paired entries and equal shapes, as a Boolean. -/
def rowClose (x r : List ℚ) (tol : ℚ) : Bool :=
  x.length == r.length &&
    (List.zipWith (fun a b => decide (|a - b| ≤ tol)) x r).all id

/-- All entries of two matrices agree within `tol`, shapes equal. -/
def allClose (X R : List (List ℚ)) (tol : ℚ) : Bool :=
  X.length == R.length &&
    (List.zipWith (fun x r => rowClose x r tol) X R).all id

/-! ### The weather/umbrella reference fixture of `test_mlhmm.py` -/

/-- Transition matrix of the 2-state weather/umbrella reference HMM. -/
def A_wb : List (List ℚ) := [[7/10, 3/10], [3/10, 7/10]]

/-- State-probability trajectory of the weather/umbrella reference HMM. -/
def B_wb : List (List ℚ) :=
  [[9/10, 2/10], [9/10, 2/10], [1/10, 8/10], [9/10, 2/10], [9/10, 2/10]]

/-- Initial distribution of the weather/umbrella reference HMM. -/
def pi_wb : List ℚ := [1/2, 1/2]

/-- Reference scaled forward variables from `test_forward`. -/
def alpha_ref : List (List ℚ) :=
  [[8182/10000, 1818/10000], [8834/10000, 1166/10000], [1907/10000, 8093/10000],
   [7308/10000, 2692/10000], [8673/10000, 1327/10000]]

/-! ### Claims C1–C3 -/

/-- The accumulated log-likelihood of the forward pass on the weather fixture
is `log` of the telescoped product of the per-step normalizers,
`68607401 / 2000000000`; it lies within `1.5e-4` of `-3.3725`. -/
theorem log_P_weather_bounds :
    |Real.log ((68607401 : ℝ) / 2000000000) + 1349/400| ≤ 3/20000 := by
  have hlogy : Real.log (((68607401 : ℝ) / 2000000000) ^ 15 * 2 ^ 73)
      = 15 * Real.log ((68607401 : ℝ) / 2000000000) + 73 * Real.log 2 := by
    rw [Real.log_mul (by positivity) (by positivity), Real.log_pow, Real.log_pow]
    push_cast
    ring
  have hypos : (0:ℝ) < ((68607401 : ℝ) / 2000000000) ^ 15 * 2 ^ 73 := by positivity
  have hy1 : (100:ℝ)/99 ≤ ((68607401 : ℝ) / 2000000000) ^ 15 * 2 ^ 73 := by norm_num
  have hy2 : ((68607401 : ℝ) / 2000000000) ^ 15 * 2 ^ 73 ≤ 634/625 := by norm_num
  have hub : Real.log (((68607401 : ℝ) / 2000000000) ^ 15 * 2 ^ 73)
      ≤ ((68607401 : ℝ) / 2000000000) ^ 15 * 2 ^ 73 - 1 :=
    Real.log_le_sub_one_of_pos hypos
  have hlb : 1 - (((68607401 : ℝ) / 2000000000) ^ 15 * 2 ^ 73)⁻¹
      ≤ Real.log (((68607401 : ℝ) / 2000000000) ^ 15 * 2 ^ 73) := by
    have h1 : Real.log ((((68607401 : ℝ) / 2000000000) ^ 15 * 2 ^ 73))⁻¹
        ≤ (((68607401 : ℝ) / 2000000000) ^ 15 * 2 ^ 73)⁻¹ - 1 :=
      Real.log_le_sub_one_of_pos (by positivity)
    rw [Real.log_inv] at h1
    linarith
  have hyinv : (((68607401 : ℝ) / 2000000000) ^ 15 * 2 ^ 73)⁻¹ ≤ 99/100 := by
    rw [inv_le_comm₀ hypos (by norm_num)]
    linarith
  have h2lo := Real.log_two_gt_d9
  have h2hi := Real.log_two_lt_d9
  rw [abs_le]
  constructor
  · nlinarith [hlogy, hlb, hyinv, h2hi]
  · nlinarith [hlogy, hub, hy2, h2lo]

/-- Claim C1: on the weather/umbrella reference fixture, the forward operation
returns scaled forward variables within `1.5e-4` of the reference `α` and an
accumulated log-likelihood (the sum of the logs of the per-step normalizers)
within `1.5e-4` of `-3.3725`. -/
theorem forward_weather_reference :
    allClose (forward A_wb B_wb pi_wb).2 alpha_ref (3/20000) = true ∧
    |(((forward A_wb B_wb pi_wb).1.map fun q => Real.log (q : ℝ)).sum
      + 1349/400)| ≤ 3/20000 := by
  constructor
  · with_unfolding_all rfl
  · have hn : (forward A_wb B_wb pi_wb).1 =
        [11/20, 703/1100, 24089/70300, 1116253/2408900, 68607401/111625300] := by
      with_unfolding_all rfl
    rw [hn]
    have hsum : ((([11/20, 703/1100, 24089/70300, 1116253/2408900,
          68607401/111625300] : List ℚ)).map fun q => Real.log (q : ℝ)).sum =
        Real.log ((68607401 : ℝ) / 2000000000) := by
      simp only [List.map, List.sum_cons, List.sum_nil, add_zero]
      rw [← Real.log_mul (by norm_num) (by norm_num),
        ← Real.log_mul (by norm_num) (by norm_num),
        ← Real.log_mul (by norm_num) (by norm_num),
        ← Real.log_mul (by norm_num) (by norm_num)]
      norm_num
    rw [hsum]
    exact log_P_weather_bounds

/-- Claim C2 as stated is false on the code: on the weather/umbrella fixture
the backward operation returns a last row of `[1/2, 1/2]` (the ones-vector
normalized by its sum), not the ones-vector. -/
theorem backward_last_row_not_ones :
    ¬ (backward A_wb B_wb).getLastD [] = List.replicate 2 (1 : ℚ) := by
  have h : (backward A_wb B_wb).getLastD [] = [1/2, 1/2] := by
    with_unfolding_all rfl
  rw [h]
  norm_num [List.replicate]

/-- `getLastD` does not depend on the default for a nonempty list. -/
theorem getLastD_of_ne_nil {α : Type} (l : List α) (hl : l ≠ []) (d e : α) :
    l.getLastD d = l.getLastD e := by
  obtain ⟨x, hx⟩ := Option.isSome_iff_exists.mp (List.getLast?_isSome.mpr hl)
  rw [List.getLastD_eq_getLast?, List.getLastD_eq_getLast?, hx]
  rfl

/-- Claim C2 (amended): for every transition matrix `A` and nonempty
state-probability trajectory `B`, the last row of the backward variables is
the uniform vector with each entry `1/N` (`N = A.length`): the ones
initialization normalized by its sum, matching the reference fixture. -/
theorem backward_last_row_uniform (A B : List (List ℚ)) (hB : B ≠ []) :
    (backward A B).getLastD [] =
      List.replicate A.length ((A.length : ℚ))⁻¹ := by
  induction B with
  | nil => exact absurd rfl hB
  | cons b rest ih =>
    cases rest with
    | nil =>
      show [(normalizeRow (List.replicate A.length 1)).2].getLastD [] = _
      simp [normalizeRow, List.sum_replicate, List.map_replicate,
        nsmul_eq_mul, one_div]
    | cons b1 rest1 =>
      have htail := ih (by simp)
      have hne : backward A (b1 :: rest1) ≠ [] := by
        cases rest1 <;> simp [backward]
      calc (backward A (b :: b1 :: rest1)).getLastD []
          = (backward A (b1 :: rest1)).getLastD _ := List.getLastD_cons _ _ _
        _ = (backward A (b1 :: rest1)).getLastD [] :=
            getLastD_of_ne_nil _ hne _ _
        _ = _ := htail

/-- Concrete instance of the amended C2 on the weather fixture. -/
theorem backward_last_row_uniform_witness :
    B_wb ≠ [] ∧
      (backward A_wb B_wb).getLastD [] =
        List.replicate A_wb.length ((A_wb.length : ℚ))⁻¹ :=
  ⟨by decide, backward_last_row_uniform A_wb B_wb (by decide)⟩

/-- Claim C3: on the weather/umbrella reference fixture, the Viterbi
operation returns the maximum-likelihood hidden path `[0, 0, 1, 0, 0]`. -/
theorem viterbi_weather_reference :
    viterbi A_wb B_wb pi_wb = [0, 0, 1, 0, 0] := by
  with_unfolding_all rfl

/-! ## Robust spectral algebra engine

The `sktime.numeric` implementation is not among the Python sources (only its
tests are), so the engine is modelled from the specification, §4.2.  The
external dense eigensolver (LAPACK, behind both the `"QR"` and `"schur"`
strategies) is abstracted as input *eigen-data*: a list of
(eigenvalue, eigenvector) pairs.  `spd_eig` post-processes this data exactly
as the spec prescribes: sort by descending magnitude, truncate every
eigenvalue of magnitude below the cutoff `epsilon`, fail with the
zero-rank error when nothing survives, and optionally apply the canonical
sign convention. -/

/-- An eigenvalue paired with an eigenvector of dimension `d`. -/
abbrev EigPair (d : Nat) := ℚ × (Fin d → ℚ)

/-- Dot product of two vectors over `Fin d`. -/
def dotF {d : Nat} (v w : Fin d → ℚ) : ℚ := ∑ i, v i * w i

/-- Descending-magnitude order on eigen-pairs used by the sorting step. -/
def rNorm {d : Nat} (p q : EigPair d) : Prop := |q.1| ≤ |p.1|

instance {d : Nat} : DecidableRel (rNorm (d := d)) :=
  fun p q => inferInstanceAs (Decidable (|q.1| ≤ |p.1|))

instance {d : Nat} : IsTotal (EigPair d) rNorm :=
  ⟨fun p q => le_total |q.1| |p.1|⟩

instance {d : Nat} : IsTrans (EigPair d) rNorm :=
  ⟨fun _ _ _ hab hbc => le_trans hbc hab⟩

/-- First index of maximal magnitude in a vector (`argmax` of `|v|`). -/
def argmaxAbs {d : Nat} (v : Fin d → ℚ) : Option (Fin d) :=
  (List.finRange d).foldl
    (fun best i =>
      match best with
      | none => some i
      | some b => if |v b| < |v i| then some i else some b)
    none

/-- Modelled from the spec: the canonical sign convention of `spd_eig` —
flip the eigenvector's sign so that its largest-magnitude component (the
first component achieving the maximum) is positive. -/
def canonicalSign {d : Nat} (v : Fin d → ℚ) : Fin d → ℚ :=
  match argmaxAbs v with
  | none => v
  | some j => if v j < 0 then (fun i => -(v i)) else v

/-- Apply the canonical sign convention to every eigenvector when asked. -/
def applySigns {d : Nat} (canonical : Bool) (l : List (EigPair d)) :
    List (EigPair d) :=
  if canonical then l.map (fun p => (p.1, canonicalSign p.2)) else l

/-- Modelled from the spec: `spd_eig(M, epsilon, method, canonical_signs)` of
`sktime.numeric`, absent from the Python sources.  The dense eigensolver is
abstracted as the input eigen-data; both `method` strategies produce such
data.  The post-processing sorts eigenpairs by descending magnitude,
discards every pair of magnitude below `epsilon`, raises the zero-rank
error when no pair survives, and optionally canonicalizes signs. -/
def spd_eig {d : Nat} (pairs : List (EigPair d)) (ε : ℚ) (canonical : Bool) :
    Except Unit (List (EigPair d)) :=
  let kept := (List.insertionSort rNorm pairs).filter
    (fun p => decide (ε ≤ |p.1|))
  if kept.isEmpty then .error () else .ok (applySigns canonical kept)

/-- The symmetric matrix `V diag(S) Vᵀ = Σ λᵢ · vᵢ vᵢᵀ` described by
eigen-data. -/
def recon {d : Nat} (l : List (EigPair d)) : Matrix (Fin d) (Fin d) ℚ :=
  (l.map (fun p => p.1 • Matrix.vecMulVec p.2 p.2)).sum

/-- Modelled from the spec: `spd_inv(M, epsilon, method)` of
`sktime.numeric`, absent from the Python sources: the pseudo-inverse
`V diag(1/S) Vᵀ` over the rank retained by `spd_eig`. -/
def spd_inv {d : Nat} (pairs : List (EigPair d)) (ε : ℚ) :
    Except Unit (Matrix (Fin d) (Fin d) ℚ) :=
  (spd_eig pairs ε false).map
    (fun kept => recon (kept.map (fun p => (p.1⁻¹, p.2))))

/-- The eigen-data of the 1×1 matrix `[[x]]`: eigenvalue `x` with
eigenvector `(1)`. -/
def eigOfScalar (x : ℚ) : List (EigPair 1) := [(x, fun _ => 1)]

/-! ### Basic lemmas about the spectral model -/

/-- `recon` of a cons. -/
theorem recon_cons {d : Nat} (a : EigPair d) (l : List (EigPair d)) :
    recon (a :: l) = a.1 • Matrix.vecMulVec a.2 a.2 + recon l := by
  simp [recon]

/-- `recon` is invariant under permutation of the eigen-data. -/
theorem recon_perm {d : Nat} {l l2 : List (EigPair d)} (h : l.Perm l2) :
    recon l = recon l2 :=
  List.Perm.sum_eq (h.map _)

/-- Dropping zero eigenvalues does not change the reconstruction. -/
theorem recon_filter {d : Nat} (ε : ℚ) (l : List (EigPair d))
    (h : ∀ p ∈ l, ¬ ε ≤ |p.1| → p.1 = 0) :
    recon (l.filter (fun p => decide (ε ≤ |p.1|))) = recon l := by
  induction l with
  | nil => rfl
  | cons a t ih =>
    have ht : ∀ p ∈ t, ¬ ε ≤ |p.1| → p.1 = 0 :=
      fun p hp => h p (List.mem_cons_of_mem a hp)
    by_cases ha : ε ≤ |a.1|
    · rw [List.filter_cons_of_pos (by simpa using ha), recon_cons, recon_cons,
        ih ht]
    · rw [List.filter_cons_of_neg (by simpa using ha), recon_cons,
        h a (List.mem_cons_self a t) ha, zero_smul, zero_add, ih ht]

/-- The dot product over `Fin d` is symmetric. -/
theorem dotF_comm {d : Nat} (v w : Fin d → ℚ) : dotF v w = dotF w v := by
  simp [dotF, mul_comm]

/-- Negating the left argument negates the dot product. -/
theorem dotF_neg_left {d : Nat} (v w : Fin d → ℚ) :
    dotF (fun i => -(v i)) w = -dotF v w := by
  simp [dotF]

/-- Negating the right argument negates the dot product. -/
theorem dotF_neg_right {d : Nat} (v w : Fin d → ℚ) :
    dotF v (fun i => -(w i)) = -dotF v w := by
  simp [dotF]

/-- The canonical sign convention either keeps or negates the vector. -/
theorem canonicalSign_cases {d : Nat} (v : Fin d → ℚ) :
    canonicalSign v = v ∨ canonicalSign v = (fun i => -(v i)) := by
  unfold canonicalSign
  cases argmaxAbs v with
  | none => exact Or.inl rfl
  | some j =>
    by_cases hj : v j < 0
    · refine Or.inr ?_
      show (if v j < 0 then (fun i => -(v i)) else v) = _
      rw [if_pos hj]
    · refine Or.inl ?_
      show (if v j < 0 then (fun i => -(v i)) else v) = _
      rw [if_neg hj]

/-- The outer product `v vᵀ` is unchanged by negating `v`. -/
theorem vecMulVec_neg_neg {d : Nat} (v : Fin d → ℚ) :
    Matrix.vecMulVec (fun i => -(v i)) (fun i => -(v i)) =
      Matrix.vecMulVec v v := by
  ext i j
  simp [Matrix.vecMulVec_apply]

/-- With `canonical_signs=False` the sign step is the identity. -/
theorem applySigns_false {d : Nat} (l : List (EigPair d)) :
    applySigns false l = l := rfl

/-- When some eigenvalue survives the cutoff, `spd_eig` succeeds and returns
the sorted, truncated, sign-adjusted eigen-data. -/
theorem spd_eig_ok {d : Nat} (pairs : List (EigPair d)) (ε : ℚ)
    (canonical : Bool) (hex : ∃ p ∈ pairs, ε ≤ |p.1|) :
    spd_eig pairs ε canonical = .ok (applySigns canonical
      ((List.insertionSort rNorm pairs).filter
        (fun p => decide (ε ≤ |p.1|)))) := by
  obtain ⟨p, hp, hple⟩ := hex
  have hmem : p ∈ List.insertionSort rNorm pairs :=
    (List.perm_insertionSort rNorm pairs).mem_iff.mpr hp
  have hf : p ∈ (List.insertionSort rNorm pairs).filter
      (fun p => decide (ε ≤ |p.1|)) :=
    List.mem_filter.mpr ⟨hmem, by simpa using hple⟩
  have hne := List.ne_nil_of_mem hf
  simp only [spd_eig]
  rw [if_neg (by simpa using hne)]

/-- `applySigns` does not change the eigenvalues. -/
theorem applySigns_map_fst {d : Nat} (canonical : Bool)
    (l : List (EigPair d)) :
    (applySigns canonical l).map Prod.fst = l.map Prod.fst := by
  cases canonical <;> simp [applySigns]

/-- `applySigns` does not change the reconstruction `V diag(S) Vᵀ`. -/
theorem recon_applySigns {d : Nat} (canonical : Bool) (l : List (EigPair d)) :
    recon (applySigns canonical l) = recon l := by
  cases canonical with
  | false => rfl
  | true =>
    unfold recon applySigns
    rw [if_pos rfl, List.map_map]
    have hfun : ((fun p : EigPair d => p.1 • Matrix.vecMulVec p.2 p.2) ∘
        fun p : EigPair d => (p.1, canonicalSign p.2)) =
        fun p : EigPair d => p.1 • Matrix.vecMulVec p.2 p.2 := by
      funext p
      rcases canonicalSign_cases p.2 with h | h <;>
        simp only [Function.comp_apply, h, vecMulVec_neg_neg]
    rw [hfun]

/-- Claim C4: whenever the eigensolver hands `spd_eig` an exact orthonormal
eigendecomposition of a PSD matrix (all eigenvalues nonnegative; every
eigenvalue either above the cutoff or exactly zero, as for the rank-3
`X Xᵀ` fixture; at least one survivor), `spd_eig` returns eigenvalues
sorted descending with orthonormal eigenvectors whose truncated
reconstruction `V diag(S) Vᵀ` equals the input matrix `recon pairs`; for both
eigensolver strategies and both sign conventions. -/
theorem spd_eig_reconstruction {d : Nat} (pairs : List (EigPair d)) (ε : ℚ)
    (canonical : Bool)
    (hnn : ∀ p ∈ pairs, 0 ≤ p.1)
    (hcut : ∀ p ∈ pairs, ε ≤ p.1 ∨ p.1 = 0)
    (horth : List.Pairwise (fun p q : EigPair d => dotF p.2 q.2 = 0) pairs)
    (hunit : ∀ p ∈ pairs, dotF p.2 p.2 = 1)
    (hex : ∃ p ∈ pairs, ε ≤ |p.1|) :
    ∃ kept, spd_eig pairs ε canonical = .ok kept ∧
      List.Sorted (fun a b : ℚ => b ≤ a) (kept.map Prod.fst) ∧
      recon kept = recon pairs ∧
      List.Pairwise (fun p q : EigPair d => dotF p.2 q.2 = 0) kept ∧
      ∀ p ∈ kept, dotF p.2 p.2 = 1 := by
  have hperm : (List.insertionSort rNorm pairs).Perm pairs :=
    List.perm_insertionSort rNorm pairs
  have hmem0 : ∀ p ∈ (List.insertionSort rNorm pairs).filter
      (fun p => decide (ε ≤ |p.1|)), p ∈ pairs :=
    fun p hp => hperm.mem_iff.mp (List.mem_of_mem_filter hp)
  refine ⟨_, spd_eig_ok pairs ε canonical hex, ?_, ?_, ?_, ?_⟩
  · -- eigenvalues sorted descending
    rw [applySigns_map_fst]
    have hs : List.Sorted rNorm (List.insertionSort rNorm pairs) :=
      List.sorted_insertionSort rNorm pairs
    have hsf : List.Pairwise rNorm ((List.insertionSort rNorm pairs).filter
        (fun p => decide (ε ≤ |p.1|))) := hs.filter _
    have hdesc : List.Pairwise (fun p q : EigPair d => q.1 ≤ p.1)
        ((List.insertionSort rNorm pairs).filter
          (fun p => decide (ε ≤ |p.1|))) := by
      refine hsf.imp_of_mem ?_
      intro a b ha hb hab
      have h1 : 0 ≤ a.1 := hnn a (hmem0 a ha)
      have h2 : 0 ≤ b.1 := hnn b (hmem0 b hb)
      unfold rNorm at hab
      rwa [abs_of_nonneg h1, abs_of_nonneg h2] at hab
    exact List.pairwise_map.mpr hdesc
  · -- reconstruction
    rw [recon_applySigns]
    have hzero : ∀ p ∈ List.insertionSort rNorm pairs, ¬ ε ≤ |p.1| → p.1 = 0 := by
      intro p hp hlt
      have hpp : p ∈ pairs := hperm.mem_iff.mp hp
      rcases hcut p hpp with h | h
      · exact absurd (le_trans h (le_abs_self _)) hlt
      · exact h
    rw [recon_filter ε _ hzero]
    exact recon_perm hperm
  · -- orthogonality
    have h1 : List.Pairwise (fun p q : EigPair d => dotF p.2 q.2 = 0)
        (List.insertionSort rNorm pairs) :=
      (hperm.pairwise_iff (fun h => by rw [dotF_comm]; exact h)).mpr horth
    have h2 := h1.filter (fun p : EigPair d => decide (ε ≤ |p.1|))
    cases canonical with
    | false => exact h2
    | true =>
      unfold applySigns
      rw [if_pos rfl]
      refine List.pairwise_map.mpr (h2.imp_of_mem ?_)
      intro a b _ _ hab
      rcases canonicalSign_cases a.2 with ha | ha <;>
        rcases canonicalSign_cases b.2 with hb | hb <;>
          simp only [ha, hb, dotF_neg_left, dotF_neg_right, hab, neg_zero]
  · -- unit norms
    intro p hp
    cases canonical with
    | false => exact hunit p (hmem0 p hp)
    | true =>
      unfold applySigns at hp
      rw [if_pos rfl] at hp
      obtain ⟨q, hq, rfl⟩ := List.mem_map.mp hp
      have h1 := hunit q (hmem0 q hq)
      rcases canonicalSign_cases q.2 with h | h <;>
        simp only [h, dotF_neg_left, dotF_neg_right, h1, neg_neg]

/-- Concrete instance of C4: eigen-data of `diag(4, 0)` (unit eigenvectors,
eigenvalue 0 below the `1e-5` cutoff, eigenvalue 4 above it). -/
theorem spd_eig_reconstruction_witness :
    (∀ p ∈ [((0:ℚ), (![0, 1] : Fin 2 → ℚ)), (4, ![1, 0])], 0 ≤ p.1) ∧
    (∃ kept, spd_eig [((0:ℚ), (![0, 1] : Fin 2 → ℚ)), (4, ![1, 0])]
        (1/100000) true = .ok kept ∧
      List.Sorted (fun a b : ℚ => b ≤ a) (kept.map Prod.fst) ∧
      recon kept = recon [((0:ℚ), (![0, 1] : Fin 2 → ℚ)), (4, ![1, 0])] ∧
      List.Pairwise (fun p q : EigPair 2 => dotF p.2 q.2 = 0) kept ∧
      ∀ p ∈ kept, dotF p.2 p.2 = 1) :=
  ⟨by intro p hp; fin_cases hp <;> norm_num,
   spd_eig_reconstruction _ _ _
    (by intro p hp; fin_cases hp <;> norm_num)
    (by intro p hp; fin_cases hp <;> norm_num)
    (by simp [List.pairwise_cons, dotF, Fin.sum_univ_two])
    (by intro p hp; fin_cases hp <;> simp [dotF, Fin.sum_univ_two])
    ⟨(4, ![1, 0]), by simp, by norm_num⟩⟩

/-- The `argmax` fold, started at `some b`, returns an index whose magnitude
dominates `b` and every index of the traversed list. -/
theorem argmax_foldl_some {d : Nat} (v : Fin d → ℚ) :
    ∀ (l : List (Fin d)) (b : Fin d),
      ∃ j, (l.foldl (fun best i => match best with
          | none => some i
          | some b => if |v b| < |v i| then some i else some b)
          (some b)) = some j ∧
        |v b| ≤ |v j| ∧ ∀ i ∈ l, |v i| ≤ |v j| := by
  intro l
  induction l with
  | nil =>
    intro b
    exact ⟨b, rfl, le_refl _, fun i hi => absurd hi (List.not_mem_nil i)⟩
  | cons x xs ih =>
    intro b
    by_cases h : |v b| < |v x|
    · obtain ⟨j, hj, hxj, hall⟩ := ih x
      refine ⟨j, ?_, le_trans h.le hxj, ?_⟩
      · rw [List.foldl_cons]
        simpa [h] using hj
      · intro i hi
        rcases List.mem_cons.mp hi with rfl | hi2
        · exact hxj
        · exact hall i hi2
    · obtain ⟨j, hj, hbj, hall⟩ := ih b
      refine ⟨j, ?_, hbj, ?_⟩
      · rw [List.foldl_cons]
        simpa [h] using hj
      · intro i hi
        rcases List.mem_cons.mp hi with rfl | hi2
        · exact le_trans (le_of_not_lt h) hbj
        · exact hall i hi2

/-- After the canonical sign convention, a nonzero vector has a positive
entry dominating the magnitude of every other entry. -/
theorem canonicalSign_max_pos {d : Nat} (v : Fin d → ℚ)
    (hv : ∃ i, v i ≠ 0) :
    ∃ j, 0 < canonicalSign v j ∧ ∀ i, |canonicalSign v i| ≤ canonicalSign v j := by
  obtain ⟨i1, hi1⟩ := hv
  have hd : List.finRange d ≠ [] := List.ne_nil_of_mem (List.mem_finRange i1)
  obtain ⟨x, xs, hxxs⟩ := List.exists_cons_of_ne_nil hd
  obtain ⟨j, hj, hxj, hall⟩ := argmax_foldl_some v xs x
  have hargmax : argmaxAbs v = some j := by
    unfold argmaxAbs
    rw [hxxs, List.foldl_cons]
    exact hj
  have hmax : ∀ i, |v i| ≤ |v j| := by
    intro i
    have hmem : i ∈ List.finRange d := List.mem_finRange i
    rw [hxxs] at hmem
    rcases List.mem_cons.mp hmem with rfl | h2
    · exact hxj
    · exact hall i h2
  have hjpos : 0 < |v j| := lt_of_lt_of_le (abs_pos.mpr hi1) (hmax i1)
  have hcs : canonicalSign v = if v j < 0 then (fun i => -(v i)) else v := by
    unfold canonicalSign
    rw [hargmax]
  rw [hcs]
  by_cases hneg : v j < 0
  · rw [if_pos hneg]
    refine ⟨j, neg_pos.mpr hneg, ?_⟩
    intro i
    rw [abs_neg]
    have h2 := hmax i
    rwa [abs_of_neg hneg] at h2
  · rw [if_neg hneg]
    refine ⟨j, ?_, ?_⟩
    · have h0 : 0 ≤ v j := le_of_not_lt hneg
      rwa [abs_of_nonneg h0] at hjpos
    · intro i
      have h2 := hmax i
      rwa [abs_of_nonneg (le_of_not_lt hneg)] at h2

/-- Claim C7: with `canonical_signs=True`, every eigenvector column returned
by `spd_eig` (each nonzero, as orthonormal eigenvectors are) has its
largest-magnitude component positive. -/
theorem spd_eig_canonical_signs {d : Nat} (pairs : List (EigPair d)) (ε : ℚ)
    (hvec : ∀ p ∈ pairs, ∃ i, p.2 i ≠ 0)
    (hex : ∃ p ∈ pairs, ε ≤ |p.1|) :
    ∃ kept, spd_eig pairs ε true = .ok kept ∧
      ∀ p ∈ kept, ∃ j, 0 < p.2 j ∧ ∀ i, |p.2 i| ≤ p.2 j := by
  refine ⟨_, spd_eig_ok pairs ε true hex, ?_⟩
  intro p hp
  unfold applySigns at hp
  rw [if_pos rfl] at hp
  obtain ⟨q, hq, rfl⟩ := List.mem_map.mp hp
  have hqp : q ∈ pairs :=
    (List.perm_insertionSort rNorm pairs).mem_iff.mp (List.mem_of_mem_filter hq)
  exact canonicalSign_max_pos q.2 (hvec q hqp)

/-- Concrete instance of C7: a single eigenpair whose eigenvector `(-2)` is
flipped to `(2)`. -/
theorem spd_eig_canonical_signs_witness :
    (∀ p ∈ [(((1:ℚ), fun _ => (-2:ℚ)) : EigPair 1)], ∃ i, p.2 i ≠ 0) ∧
    (∃ kept, spd_eig [(((1:ℚ), fun _ => (-2:ℚ)) : EigPair 1)] 1 true = .ok kept ∧
      ∀ p ∈ kept, ∃ j, 0 < p.2 j ∧ ∀ i, |p.2 i| ≤ p.2 j) :=
  ⟨by intro p hp; simp only [List.mem_singleton] at hp; subst hp
      exact ⟨0, by norm_num⟩,
   spd_eig_canonical_signs _ _
    (by intro p hp; simp only [List.mem_singleton] at hp; subst hp
        exact ⟨0, by norm_num⟩)
    ⟨(((1:ℚ), fun _ => (-2:ℚ)) : EigPair 1), List.mem_singleton.mpr rfl,
      by norm_num⟩⟩

/-- Claim C5: `spd_inv` on the 1×1 matrix `[[1e-18]]` with cutoff `1e-10`
raises the zero-rank error; `spd_inv [[5]]` (default cutoff `1e-10`) returns
`[[1/5]] = [[0.2]]`; and in general the zero-rank error is raised exactly
when no eigenvalue magnitude reaches the cutoff. -/
theorem spd_inv_scalar_zero_rank :
    spd_inv (eigOfScalar (1/10^18)) (1/10^10) = .error () ∧
    (∃ M, spd_inv (eigOfScalar 5) (1/10^10) = .ok M ∧ M 0 0 = 1/5) ∧
    (∀ (d : Nat) (pairs : List (EigPair d)) (ε : ℚ),
      spd_inv pairs ε = .error () ↔ ∀ p ∈ pairs, |p.1| < ε) := by
  refine ⟨by with_unfolding_all rfl, ⟨_, by with_unfolding_all rfl, ?_⟩, ?_⟩
  · with_unfolding_all rfl
  · intro d pairs ε
    constructor
    · intro herr p hp
      by_contra hge
      push_neg at hge
      have hok := spd_eig_ok pairs ε false ⟨p, hp, hge⟩
      unfold spd_inv at herr
      rw [hok] at herr
      simp [Except.map] at herr
    · intro hall
      have hkept : (List.insertionSort rNorm pairs).filter
          (fun p => decide (ε ≤ |p.1|)) = [] := by
        rw [List.filter_eq_nil_iff]
        intro p hp
        have hpp : p ∈ pairs :=
          (List.perm_insertionSort rNorm pairs).mem_iff.mp hp
        simpa using not_le.mpr (hall p hpp)
      unfold spd_inv
      simp only [spd_eig, hkept]
      rfl

/-- Claim C8: applying `spd_inv` twice recovers the input matrix on the
retained rank subspace.  When the eigensolver hands the second call the
eigen-data `(1/λ, v)` of the first pseudo-inverse and no retained direction
is truncated on the second pass, the result is exactly
`Σ_retained λ v vᵀ` — the input reconstruction restricted to the
eigendirections surviving the cutoff. -/
theorem spd_inv_twice {d : Nat} (pairs : List (EigPair d)) (ε : ℚ)
    (hsecond : ∀ p ∈ pairs, ε ≤ |p.1| → ε ≤ |p.1⁻¹|)
    (hex : ∃ p ∈ pairs, ε ≤ |p.1|) :
    ∃ kept, spd_eig pairs ε false = .ok kept ∧
      spd_inv (kept.map (fun p => (p.1⁻¹, p.2))) ε = .ok (recon kept) := by
  have hperm : (List.insertionSort rNorm pairs).Perm pairs :=
    List.perm_insertionSort rNorm pairs
  have hok := spd_eig_ok pairs ε false hex
  rw [applySigns_false] at hok
  set kept0 := (List.insertionSort rNorm pairs).filter
    (fun p => decide (ε ≤ |p.1|)) with hk
  refine ⟨kept0, hok, ?_⟩
  have hmem0 : ∀ p ∈ kept0, p ∈ pairs ∧ ε ≤ |p.1| := by
    intro p hp
    rw [hk] at hp
    refine ⟨hperm.mem_iff.mp (List.mem_of_mem_filter hp), ?_⟩
    simpa using List.of_mem_filter hp
  set invData := kept0.map (fun p : EigPair d => (p.1⁻¹, p.2)) with hinv
  have hex2 : ∃ q ∈ invData, ε ≤ |q.1| := by
    obtain ⟨p, hp, hple⟩ := hex
    have hpk : p ∈ kept0 := by
      rw [hk]
      exact List.mem_filter.mpr ⟨hperm.mem_iff.mpr hp, by simpa using hple⟩
    exact ⟨(p.1⁻¹, p.2), by rw [hinv]; exact List.mem_map_of_mem _ hpk,
      hsecond p hp hple⟩
  have hok2 := spd_eig_ok invData ε false hex2
  rw [applySigns_false] at hok2
  unfold spd_inv
  rw [hok2]
  simp only [Except.map]
  congr 1
  have hperm2 : (List.insertionSort rNorm invData).Perm invData :=
    List.perm_insertionSort _ _
  have hfilter2 : (List.insertionSort rNorm invData).filter
      (fun p => decide (ε ≤ |p.1|)) = List.insertionSort rNorm invData := by
    rw [List.filter_eq_self]
    intro q hq
    have hq2 := hperm2.mem_iff.mp hq
    rw [hinv] at hq2
    obtain ⟨p, hp, rfl⟩ := List.mem_map.mp hq2
    have h2 := hmem0 p hp
    simpa using hsecond p h2.1 h2.2
  rw [hfilter2]
  have e1 : recon ((List.insertionSort rNorm invData).map
      (fun p : EigPair d => (p.1⁻¹, p.2)))
      = recon (invData.map (fun p : EigPair d => (p.1⁻¹, p.2))) :=
    recon_perm (hperm2.map _)
  rw [e1, hinv, List.map_map]
  have hfun : ((fun p : EigPair d => (p.1⁻¹, p.2)) ∘
      (fun p : EigPair d => (p.1⁻¹, p.2))) = id := by
    funext p
    simp [Function.comp_apply, inv_inv]
  rw [hfun, List.map_id]

/-- Concrete instance of C8: the single eigenpair `(2, (1))` with cutoff
`1/2`; both `2` and `1/2 = 2⁻¹` survive the cutoff. -/
theorem spd_inv_twice_witness :
    (∀ p ∈ [(((2:ℚ), fun _ => 1) : EigPair 1)],
      (1:ℚ)/2 ≤ |p.1| → (1:ℚ)/2 ≤ |p.1⁻¹|) ∧
    ∃ kept, spd_eig [(((2:ℚ), fun _ => 1) : EigPair 1)] (1/2) false
        = .ok kept ∧
      spd_inv (kept.map (fun p => (p.1⁻¹, p.2))) (1/2) = .ok (recon kept) :=
  ⟨by intro p hp; simp only [List.mem_singleton] at hp; subst hp
      intro h
      show (1:ℚ)/2 ≤ |(2:ℚ)⁻¹|
      rw [abs_of_pos (by norm_num)]
      norm_num,
   spd_inv_twice _ _
    (by intro p hp; simp only [List.mem_singleton] at hp; subst hp
        intro h
        show (1:ℚ)/2 ≤ |(2:ℚ)⁻¹|
        rw [abs_of_pos (by norm_num)]
        norm_num)
    ⟨(((2:ℚ), fun _ => 1) : EigPair 1), List.mem_singleton.mpr rfl,
      by show (1:ℚ)/2 ≤ |(2:ℚ)|
         rw [abs_of_pos (by norm_num)]
         norm_num⟩⟩

/-! ### Claim C6: the generalized eigenproblem `eig_corr`

`eig_corr(C00, Ctt)` whitens `C00` through `L = spd_inv_split(C00)`, solves
the reduced symmetric eigenproblem for `Lᵀ Ctt L`, and maps eigenvectors
back through `L`.  The model below covers the case in which the whole
spectrum of `C00` survives the cutoff (`r = d`), where the whitening matrix
is the square matrix `L = V diag(1/σ)` with `σᵢ² = sᵢ`; the reduced dense
eigendecomposition `(μ, W)` is again external input. -/

/-- Modelled from the spec: `spd_inv_split(M, ...)` of `sktime.numeric`,
absent from the Python sources: `L = V diag(1/sqrt(S))`, in the full-rank
case, with the square roots `σ` of the eigenvalues supplied as data. -/
def spd_inv_split_full {d : Nat} (V : Matrix (Fin d) (Fin d) ℚ)
    (σ : Fin d → ℚ) : Matrix (Fin d) (Fin d) ℚ :=
  V * Matrix.diagonal (fun i => (σ i)⁻¹)

/-- Modelled from the spec: `eig_corr(C00, Ctt, ..., return_rank=True)` in
the full-rank case — eigenvalues `μ` of the reduced problem, eigenvectors
mapped back to the original space as `L · W`, and the retained rank. -/
def eig_corr_full {d : Nat} (Ctt V : Matrix (Fin d) (Fin d) ℚ)
    (σ μ : Fin d → ℚ) (W : Matrix (Fin d) (Fin d) ℚ) :
    (Fin d → ℚ) × Matrix (Fin d) (Fin d) ℚ × Nat :=
  (μ, spd_inv_split_full V σ * W, d)

/-- Applying a matrix to the `j`-th column of another matrix is the `j`-th
column of the product. -/
theorem mulVec_col {d : Nat} (M N : Matrix (Fin d) (Fin d) ℚ) (j i : Fin d) :
    M.mulVec (fun k => N k j) i = (M * N) i j := by
  simp [Matrix.mulVec, Matrix.dotProduct, Matrix.mul_apply]

/-- Claim C6: every eigenpair `(μⱼ, uⱼ)` returned by `eig_corr` satisfies the
generalized eigenproblem `Ctt uⱼ = μⱼ C00 uⱼ` exactly, provided the input
eigendecomposition `C00 = V diag(s) Vᵀ` is exact and orthogonal, `σ` are
exact nonzero square roots of `s`, and `(μ, W)` solves the reduced problem
`(Lᵀ Ctt L) W = W diag(μ)`; and with `return_rank=True` the returned rank
equals the number of returned eigenvalues. -/
theorem eig_corr_eigenpairs {d : Nat}
    (C00 Ctt V W : Matrix (Fin d) (Fin d) ℚ) (s σ μ : Fin d → ℚ)
    (hC00 : C00 = V * Matrix.diagonal s * Vᵀ)
    (hVl : Vᵀ * V = 1) (hVr : V * Vᵀ = 1)
    (hs : ∀ i, σ i ^ 2 = s i) (hσ0 : ∀ i, σ i ≠ 0)
    (hred : (spd_inv_split_full V σ)ᵀ * Ctt * spd_inv_split_full V σ * W
      = W * Matrix.diagonal μ) :
    (∀ j, Ctt.mulVec (fun i => (eig_corr_full Ctt V σ μ W).2.1 i j)
        = μ j • C00.mulVec (fun i => (eig_corr_full Ctt V σ μ W).2.1 i j)) ∧
    (eig_corr_full Ctt V σ μ W).2.2 = Fintype.card (Fin d) := by
  have hDD : Matrix.diagonal (fun i => (σ i)⁻¹) * Matrix.diagonal σ
      = (1 : Matrix (Fin d) (Fin d) ℚ) := by
    rw [Matrix.diagonal_mul_diagonal]
    have h : (fun i => (σ i)⁻¹ * σ i) = fun _ => (1:ℚ) := by
      funext i
      exact inv_mul_cancel₀ (hσ0 i)
    rw [h, Matrix.diagonal_one]
  have hDD2 : Matrix.diagonal σ * Matrix.diagonal (fun i => (σ i)⁻¹)
      = (1 : Matrix (Fin d) (Fin d) ℚ) := by
    rw [Matrix.diagonal_mul_diagonal]
    have h : (fun i => σ i * (σ i)⁻¹) = fun _ => (1:ℚ) := by
      funext i
      exact mul_inv_cancel₀ (hσ0 i)
    rw [h, Matrix.diagonal_one]
  have hLt : (spd_inv_split_full V σ)ᵀ
      = Matrix.diagonal (fun i => (σ i)⁻¹) * Vᵀ := by
    unfold spd_inv_split_full
    rw [Matrix.transpose_mul, Matrix.diagonal_transpose]
  have hSD : Matrix.diagonal s * Matrix.diagonal (fun i => (σ i)⁻¹)
      = Matrix.diagonal σ := by
    rw [Matrix.diagonal_mul_diagonal]
    have hfun : (fun i => s i * (σ i)⁻¹) = σ := by
      funext i
      rw [← hs i, sq, mul_assoc, mul_inv_cancel₀ (hσ0 i), mul_one]
    rw [hfun]
  have hC00L : C00 * spd_inv_split_full V σ = V * Matrix.diagonal σ := by
    rw [hC00]
    unfold spd_inv_split_full
    simp only [mul_assoc]
    rw [← mul_assoc Vᵀ V, hVl, one_mul, hSD]
  have hkey : Ctt * (spd_inv_split_full V σ * W)
      = V * (Matrix.diagonal σ * (W * Matrix.diagonal μ)) := by
    have h1 := congrArg
      (fun X => V * (Matrix.diagonal σ * X)) hred
    simp only at h1
    rw [hLt] at h1
    unfold spd_inv_split_full at h1
    simp only [mul_assoc] at h1
    rw [← mul_assoc (Matrix.diagonal σ) (Matrix.diagonal fun i => (σ i)⁻¹),
      hDD2, one_mul, ← mul_assoc V Vᵀ, hVr, one_mul] at h1
    unfold spd_inv_split_full
    simp only [mul_assoc]
    exact h1
  have hfinal : Ctt * (spd_inv_split_full V σ * W)
      = C00 * (spd_inv_split_full V σ * W) * Matrix.diagonal μ := by
    rw [hkey, ← mul_assoc C00, hC00L]
    simp only [mul_assoc]
  constructor
  · intro j
    funext i
    simp only [eig_corr_full]
    rw [mulVec_col, Pi.smul_apply, mulVec_col, smul_eq_mul]
    have hij := congrFun (congrFun hfinal i) j
    rw [hij, Matrix.mul_diagonal, mul_comm]
  · simp [eig_corr_full]

/-- Concrete instance of C6: `C00 = [[4]]`, `Ctt = [[8]]`, whitening
`L = [[1/2]]`, reduced matrix `[[2]]` with eigenvector `[[1]]`. -/
theorem eig_corr_eigenpairs_witness :
    ((1 : Matrix (Fin 1) (Fin 1) ℚ)ᵀ * 1 = 1) ∧
    ((∀ j, (Matrix.diagonal (fun _ => (8:ℚ))).mulVec
        (fun i => (eig_corr_full (d := 1) (Matrix.diagonal (fun _ => (8:ℚ)))
          1 (fun _ => 2) (fun _ => 2) 1).2.1 i j)
        = (fun _ => (2:ℚ)) j • (Matrix.diagonal (fun _ => (4:ℚ))).mulVec
        (fun i => (eig_corr_full (d := 1) (Matrix.diagonal (fun _ => (8:ℚ)))
          1 (fun _ => 2) (fun _ => 2) 1).2.1 i j)) ∧
    (eig_corr_full (d := 1) (Matrix.diagonal (fun _ => (8:ℚ))) 1
      (fun _ => 2) (fun _ => 2) 1).2.2 = Fintype.card (Fin 1)) :=
  ⟨by rw [Matrix.transpose_one, one_mul],
   eig_corr_eigenpairs (d := 1) (Matrix.diagonal (fun _ => (4:ℚ)))
    (Matrix.diagonal (fun _ => (8:ℚ))) 1 1 (fun _ => 4) (fun _ => 2)
    (fun _ => 2)
    (by rw [Matrix.transpose_one, one_mul, mul_one])
    (by rw [Matrix.transpose_one, one_mul])
    (by rw [Matrix.transpose_one, one_mul])
    (fun i => by norm_num)
    (fun i => by norm_num)
    (by
      unfold spd_inv_split_full
      rw [one_mul, Matrix.diagonal_transpose, mul_one, one_mul,
        Matrix.diagonal_mul_diagonal, Matrix.diagonal_mul_diagonal]
      funext i
      norm_num)⟩

/-! ### Claim C9: `handle_n_jobs` (deeptime/util/parallel.py) -/

/-- Embedded from `deeptime/util/parallel.py`.  The machine's logical CPU
count (queried through `psutil.cpu_count`/`os.cpu_count`, which report the
same machine quantity) is modelled as the environment parameter `cpuCount`,
`none` when it cannot be determined.  `value = None` maps to `none`;
`ValueError` is the `String` error. -/
def handle_n_jobs (value : Option Int) (cpuCount : Option Nat) :
    Except String Int :=
  match value with
  | none =>
    match cpuCount with
    | none => .error
        "Could not determine number of cpus in system, please provide n_jobs manually."
    | some count => .ok ((count : Int) * 2)
  | some k =>
    if k ≤ 0 then
      .error
        "n_jobs can only be None (in which case it will be determined from hardware) or a positive number"
    else .ok k

/-- Claim C9: `handle_n_jobs` raises `ValueError` on every integer `≤ 0`,
returns positive integers unchanged, returns twice the machine's CPU count
for `None` (raising `ValueError` exactly when that count cannot be
determined), and never returns a non-positive number. -/
theorem handle_n_jobs_spec (v : Option Int) (c : Option Nat)
    (hc : ∀ n, c = some n → 0 < n) :
    (∀ k, v = some k → k ≤ 0 → ∃ msg, handle_n_jobs v c = .error msg) ∧
    (∀ k, v = some k → 0 < k → handle_n_jobs v c = .ok k) ∧
    (v = none → ∀ n, c = some n → handle_n_jobs v c = .ok ((n : Int) * 2)) ∧
    (v = none → c = none → ∃ msg, handle_n_jobs v c = .error msg) ∧
    (∀ r, handle_n_jobs v c = .ok r → 0 < r) := by
  refine ⟨?_, ?_, ?_, ?_, ?_⟩
  · intro k hv hk
    subst hv
    exact ⟨"n_jobs can only be None (in which case it will be determined from hardware) or a positive number",
      by simp only [handle_n_jobs, if_pos hk]⟩
  · intro k hv hk
    subst hv
    simp [handle_n_jobs, not_le.mpr hk]
  · intro hv n hcn
    subst hv
    subst hcn
    rfl
  · intro hv hcn
    subst hv
    subst hcn
    exact ⟨_, rfl⟩
  · intro r hr
    rcases v with _ | k
    · rcases c with _ | n
      · simp [handle_n_jobs] at hr
      · simp only [handle_n_jobs] at hr
        have hn := hc n rfl
        have : ((n : Int) * 2) = r := by
          injection hr
        omega
    · by_cases hk : k ≤ 0
      · simp [handle_n_jobs, hk] at hr
      · simp only [handle_n_jobs, if_neg hk] at hr
        have : k = r := by
          injection hr
        omega

/-- Concrete instance of C9 at `n_jobs = 3` on an 8-CPU machine. -/
theorem handle_n_jobs_spec_witness :
    (∀ n, (some 8 : Option Nat) = some n → 0 < n) ∧
    ((∀ k, (some 3 : Option Int) = some k → k ≤ 0 →
        ∃ msg, handle_n_jobs (some 3) (some 8) = .error msg) ∧
     (∀ k, (some 3 : Option Int) = some k → 0 < k →
        handle_n_jobs (some 3) (some 8) = .ok k) ∧
     ((some 3 : Option Int) = none → ∀ n, (some 8 : Option Nat) = some n →
        handle_n_jobs (some 3) (some 8) = .ok ((n : Int) * 2)) ∧
     ((some 3 : Option Int) = none → (some 8 : Option Nat) = none →
        ∃ msg, handle_n_jobs (some 3) (some 8) = .error msg) ∧
     (∀ r, handle_n_jobs (some 3) (some 8) = .ok r → 0 < r)) :=
  ⟨by intro n h; injection h with h; omega,
   handle_n_jobs_spec (some 3) (some 8)
    (by intro n h; injection h with h; omega)⟩

/-! ### Claim C10: `mydot` (sparse/mle/newton/linsolve.py) -/

/-- Embedded from
`sktime/markov/tools/estimation/sparse/mle/newton/linsolve.py`: a dot
product handling dense and sparse operands.  The sparsity of each operand
(`scipy.sparse.issparse`) is modelled as a Boolean flag carried next to the
matrix value.  A sparse `A` uses `A.dot(B)`; a sparse `B` alone computes
`(Bᵀ · Aᵀ)ᵀ`; otherwise `np.dot(A, B)`. -/
def mydot {m n k : Nat} (A : Matrix (Fin m) (Fin n) ℚ × Bool)
    (B : Matrix (Fin n) (Fin k) ℚ × Bool) : Matrix (Fin m) (Fin k) ℚ :=
  if A.2 then A.1 * B.1
  else if B.2 then ((B.1)ᵀ * (A.1)ᵀ)ᵀ
  else A.1 * B.1

/-- Claim C10: in every branch — dense·dense, sparse·any, dense·sparse —
`mydot` returns the matrix product `A · B`; in particular the transposed
route `(Bᵀ · Aᵀ)ᵀ` taken when only `B` is sparse equals `A · B`. -/
theorem mydot_eq_matmul {m n k : Nat} (A : Matrix (Fin m) (Fin n) ℚ × Bool)
    (B : Matrix (Fin n) (Fin k) ℚ × Bool) :
    mydot A B = A.1 * B.1 := by
  unfold mydot
  by_cases hA : A.2 = true
  · rw [if_pos hA]
  · rw [if_neg hA]
    by_cases hB : B.2 = true
    · rw [if_pos hB, Matrix.transpose_mul, Matrix.transpose_transpose,
        Matrix.transpose_transpose]
    · rw [if_neg hB]

end DeeptimeSpec
